import Mathlib

/-!
Verification of the network_sim repository: a shallow embedding of the
bit-level buffer (src/src/utils/bit_string.rs, src/src/utils/macros.rs),
the CRC codec (src/src/data_link_layer/crc.rs), the bit-stuffing framer
(src/src/data_link_layer/bit_stuffing.rs), the TCP-like frame builder
(src/src/data_link_layer/frame/tcp.rs), the corruption model
(src/src/utils/corruption_type.rs, src/src/utils/rand.rs) and the cable
(src/src/physical_layer/cable.rs), together with theorems settling the
specification claims.

Conventions of the embedding:
* A Rust `BitString` is a `List Bit` (index 0 = earliest appended bit).
* Machine integers are `Nat` with explicit reductions `% 2^w` at the
  points where Rust wraps (`overflowing_shr`, `u128` shifts, `as` casts).
* Rust `assert!`/`ensure!`/`bail!` that a claim must reason about are
  modelled as `Except.error`; `assert!`s that are preconditions of the
  claims under consideration are recorded in doc comments and become
  hypotheses of the theorems.
* In-place mutation becomes explicit state passing: a `&mut XorShift`
  argument becomes an extra `XorShift` result component.
-/

namespace NetworkSim

/-- Embedding of `Bit` from src/src/utils/bit.rs: a two-valued unit. -/
inductive Bit where
  | Off
  | On
deriving DecidableEq, Repr

/-- Numeric value of a bit (`Bit as u32` in the source: `Off = 0`, `On = 1`). -/
def Bit.toNat : Bit → Nat
  | Bit.Off => 0
  | Bit.On => 1

/-- Embedding of `BitXor for Bit` (src/src/utils/bit.rs). -/
def Bit.bxor : Bit → Bit → Bit
  | Bit.Off, Bit.Off => Bit.Off
  | Bit.Off, Bit.On => Bit.On
  | Bit.On, Bit.Off => Bit.On
  | Bit.On, Bit.On => Bit.Off

/-- Embedding of `Bit::flip` (`*self ^= Bit::On`). -/
def Bit.flip (b : Bit) : Bit := Bit.bxor b Bit.On

/-- Embedding of the `bit_string_from_val!` macro (src/src/utils/macros.rs):
serialize an N-bit word most-significant-bit first (`mask = 1 << (bit_size-1) >> idx`). -/
def bit_string_from_val (bitSize : Nat) (data : Nat) : List Bit :=
  (List.range bitSize).map (fun idx =>
    if data.testBit (bitSize - 1 - idx) then Bit.On else Bit.Off)

/-- Embedding of the `append_type!` macro (src/src/utils/macros.rs lines 31-55):
append the N bits of `data` MSB-first (same mask walk as `bit_string_from_val!`). -/
def append_word (bitSize : Nat) (self : List Bit) (data : Nat) : List Bit :=
  self ++ bit_string_from_val bitSize data

/-- Embedding of the `get_type!` macro (src/src/utils/macros.rs lines 78-116):
read an N-bit word at a bit offset, MSB-first, zero-extending past the end
(the source `break`s at the first out-of-range index; since later indices are
also out of range, skipping them is equivalent). -/
def get_word (bitSize : Nat) (self : List Bit) (index : Nat) : Nat :=
  (List.range bitSize).foldl (fun output idx =>
    match self[index + idx]? with
    | some Bit.On => output ||| (1 <<< (bitSize - idx - 1))
    | _ => output) 0

/-- Embedding of the `set_type!` macro (src/src/utils/macros.rs lines 118-153).
The source computes `data.overflowing_shr(bit_size - idx)`, and Rust's
`overflowing_shr` masks the shift amount by the width, hence the
`(bitSize - idx) % bitSize` here; positions past the end of the buffer are
skipped (`iter_mut().skip(index).take(bit_size)`). -/
def set_word (bitSize : Nat) (self : List Bit) (index : Nat) (data : Nat) : List Bit :=
  self.take index
    ++ (List.range (min bitSize (self.length - index))).map (fun idx =>
         if (data >>> ((bitSize - idx) % bitSize)) % 2 = 1 then Bit.On else Bit.Off)
    ++ self.drop (index + bitSize)

/-- Embedding of `BitString::set_bits` (src/src/utils/bit_string.rs lines 133-145):
overwrite positions `index..index+bits.len()` with `bits`. The source asserts
`index + bits.len() <= self.len()`; under that precondition the `take` on
`bits` below is the identity. -/
def set_bits (self : List Bit) (index : Nat) (bits : List Bit) : List Bit :=
  self.take index ++ bits.take (self.length - index) ++ self.drop (index + bits.length)

/-- Embedding of `BitString::flip_bits` (src/src/utils/bit_string.rs lines 161-169):
flip positions `index..index+length` (clipped to the buffer, as
`iter_mut().skip(index).take(length)` does). The source asserts `index < len`;
every call site in the claims satisfies it. -/
def flip_bits (self : List Bit) (index length : Nat) : List Bit :=
  self.take index ++ ((self.drop index).take length).map Bit.flip
    ++ self.drop (index + length)

/-- Embedding of `BitString::flip_bit` (`flip_bits(index, 1)`). -/
def flip_bit (self : List Bit) (index : Nat) : List Bit :=
  flip_bits self index 1

/-- Embedding of `BitString::xor_assign_on_index` (src/src/utils/bit_string.rs
lines 240-258): XOR `other` into positions `index..index+other.len()`.
The source asserts `other.len() + index <= self.len()`; under that
precondition the `zipWith` below covers exactly `other.length` positions. -/
def xor_assign_on_index (self other : List Bit) (index : Nat) : List Bit :=
  self.take index ++ List.zipWith Bit.bxor (self.drop index) other
    ++ self.drop (index + other.length)

/-- Embedding of `BitString::insert_bit` (src/src/utils/bit_string.rs lines
210-221): splice one bit in before position `index` (source asserts
`index < len`; all call sites in the claims satisfy it). -/
def insert_bit (self : List Bit) (index : Nat) (b : Bit) : List Bit :=
  self.take index ++ b :: self.drop index

/-- Embedding of `BitString::remove_bit` (src/src/utils/bit_string.rs lines
88-92): remove the bit at `index` (source asserts `index < len`). -/
def remove_bit (self : List Bit) (index : Nat) : List Bit :=
  self.take index ++ self.drop (index + 1)

/-- Helper for `as_vec_with_padding`: the MSB-first word of one full chunk
(`byte |= bit << (bit_size - 1 - idx)` in src/src/utils/macros.rs lines 278-286). -/
def chunk_word (bitSize : Nat) (chunk : List Bit) : Nat :=
  (List.range chunk.length).foldl (fun byte idx =>
    byte ||| ((chunk.getD idx Bit.Off).toNat <<< (bitSize - 1 - idx))) 0

/-- Helper for `as_vec_with_padding`: the word packed from the final partial
chunk; the source packs it LSB-first (`byte |= bit << idx`, macros.rs lines
289-296). -/
def last_word (chunk : List Bit) : Nat :=
  (List.range chunk.length).foldl (fun byte idx =>
    byte ||| ((chunk.getD idx Bit.Off).toNat <<< idx)) 0

/-- Structural model of `chunks_exact(bitSize)`: returns the list of full
chunks and the remainder. `cur` accumulates the current chunk in reverse. -/
def chunksGo (bitSize : Nat) : List Bit → List Bit → List (List Bit) × List Bit
  | cur, [] => ([], cur.reverse)
  | cur, b :: rest =>
    if (b :: cur).length = bitSize then
      let p := chunksGo bitSize [] rest
      ((b :: cur).reverse :: p.1, p.2)
    else chunksGo bitSize (b :: cur) rest

/-- Embedding of the `bit_string_as_vec!` macro's `as_vec_with_padding`
(src/src/utils/macros.rs lines 272-299): split into `bitSize`-bit words
MSB-first, implicitly padding the final partial word (which the source packs
LSB-first). -/
def as_vec_with_padding (bitSize : Nat) (l : List Bit) : List Nat :=
  let p := chunksGo bitSize [] l
  p.1.map (chunk_word bitSize) ++ (if p.2.isEmpty then [] else [last_word p.2])

/-- Embedding of `XorShift` (src/src/utils/rand.rs): a 128-bit xorshift state. -/
structure XorShift where
  state : Nat
deriving DecidableEq, Repr

/-- Embedding of `XorShift::next_int` (src/src/utils/rand.rs lines 34-39);
the `u128` left shifts wrap, hence the reductions `% 2^128`. Returns the
drawn value together with the advanced state (the value is the new state). -/
def XorShift.next_int (r : XorShift) : Nat × XorShift :=
  let s := r.state
  let s := s ^^^ ((s <<< 23) % 2 ^ 128)
  let s := s ^^^ (s >>> 17)
  let s := s ^^^ ((s <<< 26) % 2 ^ 128)
  (s, XorShift.mk s)

/-- Embedding of `XorShift::next_int_bound` (src/src/utils/rand.rs lines 55-64).
The source asserts `min <= max`; every call site in the claims satisfies it. -/
def XorShift.next_int_bound (r : XorShift) (mn mx : Nat) : Nat × XorShift :=
  if mn = mx then (mn, r)
  else
    let p := r.next_int
    (mn + p.1 % (mx - mn), p.2)

/-- Embedding of `XorShift::copy_reset` (src/src/utils/rand.rs lines 74-82):
returns the derived reset copy together with the advanced original state
(the source advances `self` via the internal `next_int` call). -/
def XorShift.copy_reset (r : XorShift) : XorShift × XorShift :=
  let self_state := r.state
  let p := r.next_int
  let reset_state := self_state ^^^ p.1
  let reset_state := reset_state ^^^ (reset_state >>> 13)
  let reset_state := reset_state ^^^ ((reset_state <<< 5) % 2 ^ 128)
  let reset_state := reset_state ^^^ (reset_state >>> 11)
  (XorShift.mk reset_state, p.2)

/-- Error text used where `crc::check_and_remove`'s `ensure!` fails
(src/src/data_link_layer/crc.rs lines 22-29). -/
def errInvalidCrc : String := "the message is invalid for the generator"

/-- Error text used where `remove_last_len`'s bound assertion would fail. -/
def errRemoveOOB : String := "trying to remove index out of bounds"

namespace crc

/-- One iteration of the division loop in `binary_division`
(src/src/data_link_layer/crc.rs lines 56-63), on the reversed working buffer:
read the last bit, conditionally XOR the reversed divisor in at `xor_index`,
then drop the last bit. The source's `expect("crc should never be empty")`
cannot fire in the loop (the buffer is always non-empty there); an empty
buffer skips the XOR here. -/
def crcStep (div : List Bit) (res : List Bit) (xor_index : Nat) : List Bit :=
  (if res.getLast? = some Bit.On then xor_assign_on_index res div xor_index
   else res).dropLast

/-- Embedding of `binary_division` (src/src/data_link_layer/crc.rs lines 36-70):
GF(2) long division, implemented on reversed buffers with a descending loop
`for xor_index in (0..=len_diff).rev()`. -/
def binary_division (divident divisor : List Bit) : List Bit :=
  if divident.length < divisor.length then
    List.replicate (divisor.length - divident.length - 1) Bit.Off ++ divident
  else
    let len_diff := divident.length - divisor.length
    (((List.range (len_diff + 1)).reverse).foldl (crcStep divisor.reverse)
      divident.reverse).reverse

/-- Embedding of `crc::add` (src/src/data_link_layer/crc.rs lines 5-19):
append `len(generator)-1` zero bits, compute the remainder, write it into the
trailing bits. The source's `assert!`s (generator non-empty, data non-empty,
generator leading bit `On`) are the hypotheses of the round-trip theorem. -/
def add (generator data : List Bit) : List Bit :=
  let data := data ++ List.replicate (generator.length - 1) Bit.Off
  let c := binary_division data generator
  set_bits data (data.length - c.length) c

/-- Sum of the numeric bit values, as in `check_and_remove`'s
`.map(|bit| bit as u32).sum::<u32>()`. -/
def bit_sum (l : List Bit) : Nat :=
  l.foldr (fun b acc => b.toNat + acc) 0

/-- Embedding of `crc::check_and_remove` (src/src/data_link_layer/crc.rs lines
21-34): recompute the remainder of the received buffer, fail if it is
non-zero, otherwise strip the trailing `len(generator)-1` bits
(`remove_last_len`, whose bound assertion is modelled as an error). -/
def check_and_remove (generator data : List Bit) : Except String (List Bit) :=
  if bit_sum (binary_division data generator) = 0 then
    if generator.length - 1 ≤ data.length then
      Except.ok (data.take (data.length - (generator.length - 1)))
    else Except.error errRemoveOOB
  else Except.error errInvalidCrc

end crc

/-- Forward (non-reversed) restatement of one `binary_division` loop
iteration, proved below to match `crc.crcStep` on reversed buffers: if the
leading bit is `On`, XOR the divisor into the leading bits, then drop the
leading bit. -/
def fwdStep (g t : List Bit) : List Bit :=
  (if t.head? = some Bit.On then List.zipWith Bit.bxor t g ++ t.drop g.length
   else t).tail

/-- `n` iterations of `fwdStep`. -/
def fwdIter (g : List Bit) : Nat → List Bit → List Bit
  | 0, t => t
  | n + 1, t => fwdIter g n (fwdStep g t)

/-- Pointwise XOR of two equal-length bit lists (proof helper). -/
def lxor (a b : List Bit) : List Bit :=
  List.zipWith Bit.bxor a b

/-- Embedding of `FLAG_SEQUECE` (src/src/data_link_layer/bit_stuffing.rs
line 3): the flag octet `0b0111_1110`. -/
def FLAG_SEQUECE : Nat := 126

/-- The index-collecting scan of `stuff_bits`
(src/src/data_link_layer/bit_stuffing.rs lines 40-50): walk the buffer
counting consecutive `On` bits (an `Off` resets the counter); when the
counter reaches 6, record the current index and reset the counter. -/
def stuffScan : Nat → Nat → List Bit → List Nat
  | _, _, [] => []
  | count, idx, b :: rest =>
    let count := match b with
      | Bit.Off => 0
      | Bit.On => count + 1
    if count = 6 then idx :: stuffScan 0 (idx + 1) rest
    else stuffScan count (idx + 1) rest

/-- Embedding of `stuff_bits` (src/src/data_link_layer/bit_stuffing.rs lines
35-57): collect the insertion indices, then insert an `Off` bit at each,
iterating over the indices in reverse (descending) order. -/
def stuff_bits (data : List Bit) : List Bit :=
  (stuffScan 0 0 data).reverse.foldl (fun d idx => insert_bit d idx Bit.Off) data

/-- The final value of `stuff_bits`'s run counter after scanning a buffer
(proof helper for reasoning about `stuffScan` on concatenations). -/
def stuffCount : Nat → List Bit → Nat
  | count, [] => count
  | count, b :: rest =>
    let count := match b with
      | Bit.Off => 0
      | Bit.On => count + 1
    if count = 6 then stuffCount 0 rest else stuffCount count rest

/-- The index-collecting scan of `decode_bits`
(src/src/data_link_layer/bit_stuffing.rs lines 14-26): count consecutive `On`
bits; at each `Off` bit, record its index if the count is exactly 5, and
reset the counter. -/
def decodeScan : Nat → Nat → List Bit → List Nat
  | _, _, [] => []
  | count, idx, b :: rest =>
    match b with
    | Bit.On => decodeScan (count + 1) (idx + 1) rest
    | Bit.Off =>
      if count = 5 then idx :: decodeScan 0 (idx + 1) rest
      else decodeScan 0 (idx + 1) rest

/-- Embedding of `decode_bits` (src/src/data_link_layer/bit_stuffing.rs lines
10-33): collect the removal indices, then remove the bit at each, iterating
over the indices in reverse (descending) order. -/
def decode_bits (data : List Bit) : List Bit :=
  (decodeScan 0 0 data).reverse.foldl (fun d idx => remove_bit d idx) data

/-- Embedding of `surround_flags` (src/src/data_link_layer/bit_stuffing.rs
lines 59-63): prepend and append the flag octet. -/
def surround_flags (data : List Bit) : List Bit :=
  bit_string_from_val 8 FLAG_SEQUECE ++ data ++ bit_string_from_val 8 FLAG_SEQUECE

/-- Embedding of `prepare_bits` (src/src/data_link_layer/bit_stuffing.rs lines
5-8): stuff, then wrap in flags. -/
def prepare_bits (data : List Bit) : List Bit :=
  surround_flags (stuff_bits data)

/-- Error text for the `assert!(!data.is_empty())` contract checks of the
corruption model (src/src/utils/corruption_type.rs line 26). -/
def errEmptyData : String := "assertion failed: data must not be empty"

/-- Error text for the `assert!(chance <= 100)` contract checks
(src/src/utils/corruption_type.rs lines 58 and 89). -/
def errChance : String := "assertion failed: chance must be at most 100"

/-- Error text for the `unreachable!()` arms of the random dispatchers. -/
def errUnreachable : String := "entered unreachable code"

/-- Embedding of `ENUM_VARIANTS` (src/src/utils/corruption_type.rs line 5). -/
def ENUM_VARIANTS : Nat := 6

/-- Embedding of the `Corruption` variant set (src/src/utils/corruption_type.rs
lines 8-17); each stochastic variant carries its own generator state. -/
inductive Corruption where
  | noCorruptionKind
  | random (rand : XorShift)
  | randomCorruption (rand : XorShift)
  | oneBitFlip (rand : XorShift)
  | multiBitFlipOdd (rand : XorShift) (chance : Nat)
  | multiBitFlipEven (rand : XorShift) (chance : Nat)
  | burstFlip (rand : XorShift)
deriving DecidableEq, Repr

namespace Corruption

/-- Embedding of `Corruption::no_corruption` (corruption_type.rs lines 43-45). -/
def no_corruption (data : List Bit) : List Bit := data

/-- Embedding of `Corruption::one_bit_flip` (corruption_type.rs lines 47-51):
flip one bit at index `next_int() % len`. Callers establish the non-emptiness
precondition (the source would divide by zero / assert otherwise). -/
def one_bit_flip (rand : XorShift) (data : List Bit) : XorShift × List Bit :=
  let p := rand.next_int
  let idx := p.1 % data.length
  (p.2, flip_bit data idx)

/-- One pass of `multi_bit_flip_even`'s per-bit loop (corruption_type.rs lines
66-74): for each bit draw `next_int() % 100` and flip the bit unless the draw
exceeds `chance`. -/
def flip_loop (chance : Nat) : XorShift → List Bit → XorShift × List Bit
  | rand, [] => (rand, [])
  | rand, b :: rest =>
    let p := rand.next_int
    let event := p.1 % 100
    let b := if event > chance then b else b.flip
    let q := flip_loop chance p.2 rest
    (q.1, b :: q.2)

/-- Count of the `On` bits of a buffer (`.filter(.. == Bit::On).count()`). -/
def count_ones (l : List Bit) : Nat := l.count Bit.On

/-- Embedding of `usize::abs_diff`. -/
def abs_diff (a b : Nat) : Nat := (a - b) + (b - a)

/-- Embedding of `Corruption::multi_bit_flip_even` (corruption_type.rs lines
57-85): per-bit random flips, then one extra `one_bit_flip` if the parity of
the ones-count difference is odd. The `assert!(chance <= 100)` is an error. -/
def multi_bit_flip_even (rand : XorShift) (chance : Nat) (data : List Bit) :
    Except String (XorShift × List Bit) :=
  if chance ≤ 100 then
    if chance = 0 then Except.ok (rand, data)
    else
      let count_ones_before := count_ones data
      let p := flip_loop chance rand data
      let count_ones_after := count_ones p.2
      if abs_diff count_ones_before count_ones_after % 2 ≠ 0 then
        Except.ok (one_bit_flip p.1 p.2)
      else Except.ok p
  else Except.error errChance

/-- Embedding of `Corruption::multi_bit_flip_odd` (corruption_type.rs lines
88-98): for non-zero chance, corrupt an even number of times then once more;
for `chance = 0` the source returns the data unchanged. -/
def multi_bit_flip_odd (rand : XorShift) (chance : Nat) (data : List Bit) :
    Except String (XorShift × List Bit) :=
  if chance ≤ 100 then
    if chance = 0 then Except.ok (rand, data)
    else
      match multi_bit_flip_even rand chance data with
      | Except.ok p => Except.ok (one_bit_flip p.1 p.2)
      | Except.error e => Except.error e
  else Except.error errChance

/-- Embedding of `Corruption::burst_flip` (corruption_type.rs lines 101-111):
flip a contiguous run whose length is drawn from
`[min(len/2,4), min(len/2,16)]`, at offset `next_int() % (len - run)`.
Callers establish the non-emptiness precondition. -/
def burst_flip (rand : XorShift) (data : List Bit) : XorShift × List Bit :=
  let p := rand.next_int_bound (min (data.length / 2) 4) (min (data.length / 2) 16)
  let len := p.1
  let q := p.2.next_int
  let idx := q.1 % (data.length - len)
  (q.2, flip_bits data idx len)

/-- Embedding of `Corruption::random` (corruption_type.rs lines 113-130):
derive a sub-generator by `copy_reset`, draw a chance and a variant index,
and dispatch. The source dispatches through `Corruption::corrupt`, which
re-asserts non-emptiness and forwards to the per-variant function; that one
dispatch step is inlined here (the sub-variant's final generator state is
dropped by the source as well). Returns the advanced outer state and the
corrupted buffer. -/
def random_helper (rand : XorShift) (data : List Bit) :
    Except String (XorShift × List Bit) :=
  let cr := rand.copy_reset
  let sub := cr.1
  let rand1 := cr.2
  let d1 := sub.next_int
  let chance := d1.1 % 101
  let d2 := d1.2.next_int
  let idx := d2.1 % (ENUM_VARIANTS - 1)
  let sub2 := d2.2
  if data.isEmpty then Except.error errEmptyData else
  match idx with
  | 0 => Except.ok (rand1, no_corruption data)
  | 1 => Except.ok (rand1, (one_bit_flip sub2 data).2)
  | 2 =>
    match multi_bit_flip_odd sub2 chance data with
    | Except.ok p => Except.ok (rand1, p.2)
    | Except.error e => Except.error e
  | 3 =>
    match multi_bit_flip_even sub2 chance data with
    | Except.ok p => Except.ok (rand1, p.2)
    | Except.error e => Except.error e
  | 4 => Except.ok (rand1, (burst_flip sub2 data).2)
  | _ => Except.error errUnreachable

/-- Embedding of `Corruption::random_corruption` (corruption_type.rs lines
132-148): as `random` but the variant index is drawn modulo
`ENUM_VARIANTS - 2` over the non-`None` variants. -/
def random_corruption_helper (rand : XorShift) (data : List Bit) :
    Except String (XorShift × List Bit) :=
  let cr := rand.copy_reset
  let sub := cr.1
  let rand1 := cr.2
  let d1 := sub.next_int
  let chance := d1.1 % 101
  let d2 := d1.2.next_int
  let idx := d2.1 % (ENUM_VARIANTS - 2)
  let sub2 := d2.2
  if data.isEmpty then Except.error errEmptyData else
  match idx with
  | 0 => Except.ok (rand1, (one_bit_flip sub2 data).2)
  | 1 =>
    match multi_bit_flip_odd sub2 chance data with
    | Except.ok p => Except.ok (rand1, p.2)
    | Except.error e => Except.error e
  | 2 =>
    match multi_bit_flip_even sub2 chance data with
    | Except.ok p => Except.ok (rand1, p.2)
    | Except.error e => Except.error e
  | 3 => Except.ok (rand1, (burst_flip sub2 data).2)
  | _ => Except.error errUnreachable

/-- Embedding of `Corruption::corrupt_borrow` (corruption_type.rs lines 25-41):
assert non-empty data, then dispatch on the variant, mutating the variant's
generator state in place (modelled by returning the updated variant). -/
def corrupt_borrow (c : Corruption) (data : List Bit) :
    Except String (Corruption × List Bit) :=
  if data.isEmpty then Except.error errEmptyData else
  match c with
  | Corruption.noCorruptionKind =>
    Except.ok (Corruption.noCorruptionKind, no_corruption data)
  | Corruption.oneBitFlip rand =>
    let p := one_bit_flip rand data
    Except.ok (Corruption.oneBitFlip p.1, p.2)
  | Corruption.multiBitFlipEven rand chance =>
    match multi_bit_flip_even rand chance data with
    | Except.ok p => Except.ok (Corruption.multiBitFlipEven p.1 chance, p.2)
    | Except.error e => Except.error e
  | Corruption.multiBitFlipOdd rand chance =>
    match multi_bit_flip_odd rand chance data with
    | Except.ok p => Except.ok (Corruption.multiBitFlipOdd p.1 chance, p.2)
    | Except.error e => Except.error e
  | Corruption.burstFlip rand =>
    let p := burst_flip rand data
    Except.ok (Corruption.burstFlip p.1, p.2)
  | Corruption.random rand =>
    match random_helper rand data with
    | Except.ok p => Except.ok (Corruption.random p.1, p.2)
    | Except.error e => Except.error e
  | Corruption.randomCorruption rand =>
    match random_corruption_helper rand data with
    | Except.ok p => Except.ok (Corruption.randomCorruption p.1, p.2)
    | Except.error e => Except.error e

end Corruption

/-- Number of positions at which two equal-length buffers differ (the
`bits_flipped` notion of the repository's corruption tests). -/
def hamming (a b : List Bit) : Nat :=
  (List.zipWith Bit.bxor a b).count Bit.On

/-- Error text for the `assert!(... .is_some())` mandatory-field checks of the
frame builder (src/src/data_link_layer/frame/tcp.rs lines 56-58 and 78-80). -/
def errMissingField : String := "assertion failed: mandatory builder field missing"

/-- Error text for the `assert!(output_bitstring.len() % 16 == 0, "The full
bitstring was not padded correctly")` checks (tcp.rs lines 121-124 and 143). -/
def errNotPadded : String := "The full bitstring was not padded correctly"

/-- Error text for the `assert_eq!(.., "AAAAAAaa")` checksum-placement check
(tcp.rs lines 137-141). -/
def errChecksumPlacement : String := "AAAAAAaa"

/-- Error text for the `assert!(data_points.len() < u32::MAX ..)` check of
`build_all` (tcp.rs lines 60-64). -/
def errTooManyChunks : String := "cannot support data transfers of that many packets"

/-- One step of the `while sum > 0xFFFF` carry-folding loop of
`TCPFrameBuilder::build` (tcp.rs lines 130-132), written with explicit fuel;
each iteration strictly decreases the sum, so fuel equal to the initial sum
always suffices (`fold_carry` below), making the function total and
structurally recursive. -/
def fold_carry_fuel : Nat → Nat → Nat
  | 0, sum => sum
  | fuel + 1, sum =>
    if sum > 65535 then fold_carry_fuel fuel ((sum >>> 16) + (sum &&& 65535))
    else sum

/-- The carry-folding loop of `TCPFrameBuilder::build`: fold carries above bit
15 back into the low 16 bits until the sum fits in 16 bits. -/
def fold_carry (sum : Nat) : Nat := fold_carry_fuel sum sum

/-- Embedding of the `TCPFrameBuilder` configuration
(src/src/data_link_layer/frame/tcp.rs lines 26-38). -/
structure TCPFrameBuilder where
  source_port : Option Nat
  target_port : Option Nat
  sequence_num : Nat
  ack_num : Nat
  data_offset : Nat
  flag_byte : Nat
  window_size : Option Nat
  urgent_pointer : Nat
  options : List Nat
deriving DecidableEq, Repr

/-- Embedding of `TCPFrameBuilder::new` (tcp.rs lines 41-53): no ports or
window configured, `data_offset = 5`, everything else zero. -/
def TCPFrameBuilder.new : TCPFrameBuilder :=
  { source_port := none, target_port := none, sequence_num := 0, ack_num := 0,
    data_offset := 5, flag_byte := 0, window_size := none, urgent_pointer := 0,
    options := List.replicate 10 0 }

/-- Embedding of the `TCPFrame` result (tcp.rs lines 229-247). -/
structure TCPFrame where
  source_port : Nat
  target_port : Nat
  sequence_num : Nat
  ack_num : Nat
  data_offset : Nat
  flag_byte : Nat
  window_size : Nat
  checksum : Nat
  urgent_pointer : Nat
  options : List Nat
  data : List Bit
  output_bitstring : List Bit
deriving DecidableEq, Repr

/-- Embedding of `TCPFrameBuilder::build` (tcp.rs lines 77-159). Field order:
src port (16) · dst port (16) · seq (32) · ack (32) · `data_offset << 4` (8) ·
flags (8) · window (16) · checksum placeholder 0 (16) · urgent (16) · option
words (`data_offset.checked_sub(5)` of them, which `Nat` subtraction models).
Then the payload is appended, `len % 16` zero bits are appended as "padding",
and the source asserts `len % 16 == 0`. The checksum sums the 16-bit words,
folds carries, complements (`! (sum as u16)`, i.e. XOR with 0xFFFF after the
`as u16` reduction), patches it in with `set_u16(128, ..)` and asserts, via
`BitString::from`, that `get_u16(128)` reads the checksum back. All
`assert!`s are modelled as errors. -/
def TCPFrameBuilder.build (b : TCPFrameBuilder) (data : List Bit) :
    Except String TCPFrame :=
  match b.source_port, b.target_port, b.window_size with
  | some source_port, some target_port, some window_size =>
    let bs : List Bit := []
    let bs := append_word 16 bs source_port
    let bs := append_word 16 bs target_port
    let bs := append_word 32 bs b.sequence_num
    let bs := append_word 32 bs b.ack_num
    let bs := append_word 8 bs ((b.data_offset <<< 4) % 256)
    let bs := append_word 8 bs b.flag_byte
    let bs := append_word 16 bs window_size
    let bs := append_word 16 bs 0
    let bs := append_word 16 bs b.urgent_pointer
    let words := b.data_offset - 5
    let bs := (List.range words).foldl (fun acc i => append_word 32 acc (b.options.getD i 0)) bs
    let bs := bs ++ data
    let bs := bs ++ List.replicate (bs.length % 16) Bit.Off
    if bs.length % 16 = 0 then
      let vec := as_vec_with_padding 16 bs
      let sum := vec.foldl (fun a x => a + x) 0 % 2 ^ 32
      let checksum := (fold_carry sum % 65536) ^^^ 65535
      let bs := set_word 16 bs 128 checksum
      if bit_string_from_val 16 (get_word 16 bs 128) = bit_string_from_val 16 checksum then
        if bs.length % 16 = 0 then
          Except.ok
            { source_port := source_port, target_port := target_port,
              sequence_num := b.sequence_num, ack_num := b.ack_num,
              data_offset := b.data_offset, flag_byte := b.flag_byte,
              window_size := window_size, checksum := checksum,
              urgent_pointer := b.urgent_pointer, options := b.options,
              data := data, output_bitstring := bs }
        else Except.error errNotPadded
      else Except.error errChecksumPlacement
    else Except.error errNotPadded
  | _, _, _ => Except.error errMissingField

/-- The per-chunk loop of `build_all` (tcp.rs lines 66-74): set
`sequence_num = idx as u32` and build, collecting the frames in order. -/
def TCPFrameBuilder.build_all_go (b : TCPFrameBuilder) :
    Nat → List (List Bit) → Except String (List TCPFrame)
  | _, [] => Except.ok []
  | idx, d :: rest =>
    match TCPFrameBuilder.build { b with sequence_num := idx % 2 ^ 32 } d with
    | Except.ok f =>
      match TCPFrameBuilder.build_all_go b (idx + 1) rest with
      | Except.ok fs => Except.ok (f :: fs)
      | Except.error e => Except.error e
    | Except.error e => Except.error e

/-- Embedding of `TCPFrameBuilder::build_all` (tcp.rs lines 55-75): assert the
mandatory fields and the chunk-count bound, then build one frame per chunk
with sequence numbers 0, 1, 2, … in chunk order. -/
def TCPFrameBuilder.build_all (b : TCPFrameBuilder) (data_points : List (List Bit)) :
    Except String (List TCPFrame) :=
  if b.source_port.isSome ∧ b.target_port.isSome ∧ b.window_size.isSome then
    if data_points.length < 2 ^ 32 - 1 then
      TCPFrameBuilder.build_all_go b 0 data_points
    else Except.error errTooManyChunks
  else Except.error errMissingField

/-- Error text for the topology `bail!` of `Cable::send_bits`
(src/src/physical_layer/cable.rs line 86). -/
def errNoSuchNodes : String := "Cable does not connect these nodes"

/-- Embedding of `MacAddress` (src/src/utils/mac_address.rs): six address
bytes. -/
structure MacAddress where
  addr : List Nat
deriving DecidableEq, Repr

/-- Embedding of `CableContext` (src/src/physical_layer/cable.rs lines 17-22):
the unit delivered per bit. -/
structure CableContext where
  bit : Bit
  source_port : Nat
  target_port : Nat
deriving DecidableEq, Repr

/-- Embedding of `Cable` (src/src/physical_layer/cable.rs lines 24-33). The
two mpsc transmitters are modelled as the queues they feed (`nodeN_queue` is
the inbound queue of node N); the latency and pacing durations only control
real-time sleeps and are not part of the state a claim observes. -/
structure Cable where
  node1_mac : MacAddress
  node2_mac : MacAddress
  node1_queue : List CableContext
  node2_queue : List CableContext
  corruption_type : Corruption
deriving DecidableEq, Repr

/-- Embedding of `Cable::send_bits` (src/src/physical_layer/cable.rs lines
74-103): resolve the destination as the non-source endpoint (`bail!` with a
topology error when the source matches neither), sleep (a no-op here), apply
the corruption model, then enqueue every bit tagged with the ports at the
destination. Returns the updated cable and the call's result; on any error
the cable is returned unchanged (the `bail!` returns before any mutation, and
a corruption contract violation aborts the program). -/
def Cable.send_bits (c : Cable) (source_mac : MacAddress)
    (source_port target_port : Nat) (data : List Bit) :
    Cable × Except String Unit :=
  if c.node1_mac = source_mac then
    match Corruption.corrupt_borrow c.corruption_type data with
    | Except.ok p =>
      ({ c with
         corruption_type := p.1
         node2_queue := c.node2_queue ++ p.2.map
           (fun bit => CableContext.mk bit source_port target_port) },
       Except.ok ())
    | Except.error e => (c, Except.error e)
  else if c.node2_mac = source_mac then
    match Corruption.corrupt_borrow c.corruption_type data with
    | Except.ok p =>
      ({ c with
         corruption_type := p.1
         node1_queue := c.node1_queue ++ p.2.map
           (fun bit => CableContext.mk bit source_port target_port) },
       Except.ok ())
    | Except.error e => (c, Except.error e)
  else (c, Except.error errNoSuchNodes)

/-- The all-zero configuration of spec §8's checksum scenario: ports 0, seq 0,
ack 0, header-length field 0 (`set_data_offset(0)`), flags 0, window 0,
urgent 0, no options (the repository's `correct_checksum_placement` test). -/
def builder_all_zero : TCPFrameBuilder :=
  { source_port := some 0, target_port := some 0, sequence_num := 0, ack_num := 0,
    data_offset := 0, flag_byte := 0, window_size := some 0, urgent_pointer := 0,
    options := List.replicate 10 0 }

/-- `TCPFrameBuilder::new()` with only the mandatory fields configured (to 0):
`new().set_source_port(0).set_target_port(0).set_window_size(0)`. -/
def builder_ports_zero : TCPFrameBuilder :=
  { TCPFrameBuilder.new with
    source_port := some 0
    target_port := some 0
    window_size := some 0 }

/-!
Theorems. The development below first equates the reversed-buffer division
loop of `crc.binary_division` with its forward restatement `fwdIter`, then
proves the algebra of pointwise XOR needed for the CRC round trip, and then
settles each claim.
-/

theorem Bit.bxor_off_right (b : Bit) : Bit.bxor b Bit.Off = b := by
  cases b <;> rfl

theorem Bit.bxor_self (b : Bit) : Bit.bxor b b = Bit.Off := by
  cases b <;> rfl

theorem lxor_nil_right (a : List Bit) : lxor a [] = [] := by
  cases a <;> rfl

theorem lxor_cons (x y : Bit) (xs ys : List Bit) :
    lxor (x :: xs) (y :: ys) = Bit.bxor x y :: lxor xs ys := rfl

theorem lxor_length (a b : List Bit) : (lxor a b).length = min a.length b.length := by
  simp [lxor]

theorem lxor_self (a : List Bit) : lxor a a = List.replicate a.length Bit.Off := by
  induction a with
  | nil => rfl
  | cons x xs ih => simp [lxor_cons, Bit.bxor_self, ih, List.replicate_succ]

theorem lxor_replicate_off_right (a : List Bit) (n : Nat) (h : a.length ≤ n) :
    lxor a (List.replicate n Bit.Off) = a := by
  induction a generalizing n with
  | nil => rfl
  | cons x xs ih =>
    cases n with
    | zero => simp at h
    | succ m =>
      simp only [List.replicate_succ, lxor_cons, Bit.bxor_off_right]
      rw [ih m (by simpa using h)]

theorem lxor_replicate_off_left (a : List Bit) (n : Nat) (h : a.length ≤ n) :
    lxor (List.replicate n Bit.Off) a = a := by
  induction a generalizing n with
  | nil => exact lxor_nil_right _
  | cons x xs ih =>
    cases n with
    | zero => simp at h
    | succ m =>
      have hb : Bit.bxor Bit.Off x = x := by cases x <;> rfl
      simp only [List.replicate_succ, lxor_cons, hb]
      rw [ih m (by simpa using h)]

theorem lxor_cancel (a b c : List Bit) (hac : a.length ≤ c.length)
    (hbc : b.length ≤ c.length) :
    lxor (lxor a c) (lxor b c) = lxor a b := by
  induction a generalizing b c with
  | nil => rfl
  | cons x xs ih =>
    cases b with
    | nil => simp [lxor, List.zipWith]
    | cons y ys =>
      cases c with
      | nil => simp at hac
      | cons z zs =>
        have hb : Bit.bxor (Bit.bxor x z) (Bit.bxor y z) = Bit.bxor x y := by
          cases x <;> cases y <;> cases z <;> rfl
        simp only [lxor_cons, hb]
        rw [ih ys zs (by simpa using hac) (by simpa using hbc)]

theorem lxor_right_comm (a b c : List Bit) :
    lxor (lxor a b) c = lxor (lxor a c) b := by
  induction a generalizing b c with
  | nil => rfl
  | cons x xs ih =>
    cases b with
    | nil => simp [lxor_nil_right, lxor, List.zipWith]
    | cons y ys =>
      cases c with
      | nil => simp [lxor_nil_right, lxor, List.zipWith]
      | cons z zs =>
        have hb : Bit.bxor (Bit.bxor x y) z = Bit.bxor (Bit.bxor x z) y := by
          cases x <;> cases y <;> cases z <;> rfl
        simp only [lxor_cons, hb, ih]

theorem lxor_assoc (a b c : List Bit) :
    lxor (lxor a b) c = lxor a (lxor b c) := by
  induction a generalizing b c with
  | nil => rfl
  | cons x xs ih =>
    cases b with
    | nil => simp [lxor_nil_right, lxor, List.zipWith]
    | cons y ys =>
      cases c with
      | nil => simp [lxor_nil_right, lxor, List.zipWith]
      | cons z zs =>
        have hb : Bit.bxor (Bit.bxor x y) z = Bit.bxor x (Bit.bxor y z) := by
          cases x <;> cases y <;> cases z <;> rfl
        simp only [lxor_cons, hb, ih]

theorem lxor_append (a b c d : List Bit) (h : a.length = c.length) :
    lxor (a ++ b) (c ++ d) = lxor a c ++ lxor b d :=
  List.zipWith_append Bit.bxor a b c d h

theorem lxor_tail (a b : List Bit) : (lxor a b).tail = lxor a.tail b.tail := by
  cases a with
  | nil => rfl
  | cons x xs => cases b with
    | nil => simp [lxor, List.zipWith]
    | cons y ys => rfl

theorem lxor_reverse (a b : List Bit) (h : a.length = b.length) :
    lxor a.reverse b.reverse = (lxor a b).reverse := by
  induction a generalizing b with
  | nil =>
    cases b with
    | nil => rfl
    | cons y ys => simp at h
  | cons x xs ih =>
    cases b with
    | nil => simp at h
    | cons y ys =>
      have hl : xs.length = ys.length := by simpa using h
      simp only [List.reverse_cons, lxor_cons, List.reverse_append,
        List.reverse_singleton]
      rw [lxor_append xs.reverse [x] ys.reverse [y] (by simp [hl]), ih ys hl]
      rfl

theorem zipWith_eq_zipWith_take (f : Bit → Bit → Bit) (t g : List Bit) :
    List.zipWith f t g = List.zipWith f (t.take g.length) g := by
  induction g generalizing t with
  | nil => simp
  | cons y ys ih =>
    cases t with
    | nil => simp
    | cons x xs =>
      simp only [List.zipWith_cons_cons, List.length_cons, List.take_succ_cons]
      rw [ih xs]

theorem dropLast_reverse (l : List Bit) : l.reverse.dropLast = l.tail.reverse := by
  cases l with
  | nil => rfl
  | cons x xs =>
    simp only [List.reverse_cons, List.tail_cons]
    exact List.dropLast_concat

/-- One reversed-buffer loop iteration equals one forward step: when the
current (reversed) buffer holds `g.length + k` bits and the loop index is
`k`, `crc.crcStep` on the reversed buffer is the reverse of `fwdStep`. -/
theorem crcStep_reverse (g t : List Bit) (k : Nat) (hlen : t.length = g.length + k) :
    crc.crcStep g.reverse t.reverse k = (fwdStep g t).reverse := by
  have hg : g.length ≤ t.length := by omega
  have hcond : t.reverse.getLast? = t.head? := List.getLast?_reverse t
  unfold crc.crcStep fwdStep
  rw [hcond]
  by_cases hOn : t.head? = some Bit.On
  · rw [if_pos hOn, if_pos hOn]
    have hxor : xor_assign_on_index t.reverse g.reverse k
        = (List.zipWith Bit.bxor t g ++ t.drop g.length).reverse := by
      have hsplit : t = t.take g.length ++ t.drop g.length :=
        (List.take_append_drop g.length t).symm
      have hta : (t.take g.length).length = g.length := by
        simp [List.length_take]; omega
      have htb : (t.drop g.length).length = k := by
        simp [List.length_drop]; omega
      unfold xor_assign_on_index
      conv_lhs => rw [hsplit]
      rw [List.reverse_append]
      have h1 : ((t.drop g.length).reverse ++ (t.take g.length).reverse).take k
          = (t.drop g.length).reverse := by
        rw [show k = (t.drop g.length).reverse.length by simp [htb]]
        exact List.take_left _ _
      have h2 : ((t.drop g.length).reverse ++ (t.take g.length).reverse).drop k
          = (t.take g.length).reverse := by
        rw [show k = (t.drop g.length).reverse.length by simp [htb]]
        exact List.drop_left _ _
      have h3 : ((t.drop g.length).reverse ++ (t.take g.length).reverse).drop
          (k + g.reverse.length) = [] := by
        apply List.drop_eq_nil_of_le
        simp [htb, hta]
      rw [h1, h2, h3]
      have h4 : List.zipWith Bit.bxor (t.take g.length).reverse g.reverse
          = (List.zipWith Bit.bxor (t.take g.length) g).reverse :=
        lxor_reverse _ _ (by rw [hta])
      rw [h4]
      have h5 : List.zipWith Bit.bxor t g
          = List.zipWith Bit.bxor (t.take g.length) g :=
        zipWith_eq_zipWith_take Bit.bxor t g
      rw [h5, List.reverse_append]
      simp
    rw [hxor, dropLast_reverse]
  · rw [if_neg hOn, if_neg hOn, dropLast_reverse]

theorem fwdStep_length (g t : List Bit) : (fwdStep g t).length = t.length - 1 := by
  unfold fwdStep
  by_cases hOn : t.head? = some Bit.On
  · rw [if_pos hOn]
    rw [List.length_tail]
    simp only [List.length_append, List.length_zipWith, List.length_drop]
    omega
  · rw [if_neg hOn, List.length_tail]

theorem fwdIter_length (g : List Bit) (n : Nat) (t : List Bit) :
    (fwdIter g n t).length = t.length - n := by
  induction n generalizing t with
  | zero => simp [fwdIter]
  | succ m ih =>
    show (fwdIter g m (fwdStep g t)).length = t.length - (m + 1)
    rw [ih, fwdStep_length]
    omega

/-- The whole descending division loop of `crc.binary_division` equals `n`
forward steps. -/
theorem crc_loop_eq_fwd (g : List Bit) (n : Nat) (t : List Bit) (hg : g ≠ [])
    (hlen : t.length = (g.length - 1) + n) :
    ((List.range n).reverse).foldl (crc.crcStep g.reverse) t.reverse
      = (fwdIter g n t).reverse := by
  induction n generalizing t with
  | zero => simp [fwdIter]
  | succ m ih =>
    have hg1 : 1 ≤ g.length := List.length_pos.mpr hg
    have hrange : (List.range (m + 1)).reverse = m :: (List.range m).reverse := by
      rw [List.range_succ, List.reverse_append]
      rfl
    rw [hrange]
    show ((List.range m).reverse).foldl (crc.crcStep g.reverse)
        (crc.crcStep g.reverse t.reverse m) = (fwdIter g (m + 1) t).reverse
    rw [crcStep_reverse g t m (by omega)]
    have hlen' : (fwdStep g t).length = (g.length - 1) + m := by
      rw [fwdStep_length]; omega
    rw [ih (fwdStep g t) hlen']
    rfl

/-- `crc.binary_division` on a dividend at least as long as the divisor is the
forward iteration. -/
theorem binary_division_eq_fwd (g d : List Bit) (hg : g ≠ [])
    (h : g.length ≤ d.length) :
    crc.binary_division d g = fwdIter g (d.length - g.length + 1) d := by
  have hg1 : 1 ≤ g.length := List.length_pos.mpr hg
  unfold crc.binary_division
  rw [if_neg (by omega)]
  show (((List.range (d.length - g.length + 1)).reverse).foldl
    (crc.crcStep g.reverse) d.reverse).reverse = _
  rw [crc_loop_eq_fwd g (d.length - g.length + 1) d hg (by omega)]
  exact List.reverse_reverse _

theorem fwdStep_off (g t : List Bit) (h : ¬ t.head? = some Bit.On) :
    fwdStep g t = t.tail := by
  unfold fwdStep
  rw [if_neg h]

theorem fwdxor_eq_lxor (g t : List Bit) (hg : g.length ≤ t.length) :
    List.zipWith Bit.bxor t g ++ t.drop g.length
      = lxor t (g ++ List.replicate (t.length - g.length) Bit.Off) := by
  induction g generalizing t with
  | nil =>
    simp only [List.zipWith_nil_right, List.nil_append, List.length_nil,
      List.drop_zero, Nat.sub_zero]
    exact (lxor_replicate_off_right t t.length (le_refl _)).symm
  | cons y ys ih =>
    cases t with
    | nil => simp at hg
    | cons x xs =>
      have hg' : ys.length ≤ xs.length := by
        simpa using hg
      simp only [List.zipWith_cons_cons, List.cons_append, List.drop_succ_cons,
        List.length_cons]
      have hlen : xs.length + 1 - (ys.length + 1) = xs.length - ys.length := by omega
      rw [hlen]
      show Bit.bxor x y :: (List.zipWith Bit.bxor xs ys ++ xs.drop ys.length)
        = lxor (x :: xs) (y :: (ys ++ List.replicate (xs.length - ys.length) Bit.Off))
      rw [lxor_cons, ih xs hg']

theorem fwdStep_on (g t : List Bit) (h : t.head? = some Bit.On)
    (hg : g.length ≤ t.length) :
    fwdStep g t = (lxor t (g ++ List.replicate (t.length - g.length) Bit.Off)).tail := by
  unfold fwdStep
  rw [if_pos h]
  congr 1
  exact fwdxor_eq_lxor g t hg

theorem fwdStep_mask (g t : List Bit) (hg : g.length ≤ t.length) :
    fwdStep g t
      = (lxor t (if t.head? = some Bit.On
          then g ++ List.replicate (t.length - g.length) Bit.Off
          else List.replicate t.length Bit.Off)).tail := by
  by_cases h : t.head? = some Bit.On
  · rw [if_pos h]
    exact fwdStep_on g t h hg
  · rw [if_neg h, fwdStep_off g t h,
      lxor_replicate_off_right t t.length (le_refl _)]

theorem fwdStep_lxor (g a b : List Bit) (hab : a.length = b.length)
    (hga : g.length ≤ a.length) (hgh : g.head? = some Bit.On) :
    fwdStep g (lxor a b) = lxor (fwdStep g a) (fwdStep g b) := by
  have hgnil : g ≠ [] := by
    intro h
    rw [h] at hgh
    simp at hgh
  have hg1 : 1 ≤ g.length := List.length_pos.mpr hgnil
  have hgb : g.length ≤ b.length := hab ▸ hga
  have hL : (lxor a b).length = a.length := by
    rw [lxor_length]
    omega
  rw [fwdStep_mask g a hga, fwdStep_mask g b hgb,
    fwdStep_mask g (lxor a b) (by omega), ← lxor_tail]
  congr 1
  cases a with
  | nil =>
    simp only [List.length_nil] at hga
    omega
  | cons x xs =>
    cases b with
    | nil =>
      simp only [List.length_nil, List.length_cons] at hab
      exact absurd hab (by omega)
    | cons y ys =>
      have hab' : xs.length = ys.length := by simpa using hab
      have hyx : (y :: ys).length = (x :: xs).length := by simp [hab']
      have hLxy : (lxor (x :: xs) (y :: ys)).length = (x :: xs).length := hL
      rw [hyx, hLxy]
      have hhead : (lxor (x :: xs) (y :: ys)).head? = some (Bit.bxor x y) := by
        rw [lxor_cons]
        rfl
      rw [hhead]
      set L := (x :: xs).length with hLdef
      have hGlen : (g ++ List.replicate (L - g.length) Bit.Off).length = L := by
        simp only [List.length_append, List.length_replicate]
        omega
      set G := g ++ List.replicate (L - g.length) Bit.Off with hG
      have hA : (x :: xs).length ≤ L := le_of_eq hLdef.symm
      have hB : (y :: ys).length ≤ L := le_of_eq hyx
      have hAB : (lxor (x :: xs) (y :: ys)).length ≤ L := le_of_eq hLxy
      cases x <;> cases y
      · -- Off, Off: no XOR anywhere
        have cab : ¬ (some (Bit.bxor Bit.Off Bit.Off) = some Bit.On) := by decide
        have ca : ¬ ((Bit.Off :: xs).head? = some Bit.On) := by simp
        have cb : ¬ ((Bit.Off :: ys).head? = some Bit.On) := by simp
        rw [if_neg cab, if_neg ca, if_neg cb]
        rw [lxor_replicate_off_right _ L hAB,
          lxor_replicate_off_right _ L hA,
          lxor_replicate_off_right _ L hB]
      · -- Off, On: associativity of pointwise XOR
        have cab : some (Bit.bxor Bit.Off Bit.On) = some Bit.On := by decide
        have ca : ¬ ((Bit.Off :: xs).head? = some Bit.On) := by simp
        have cb : (Bit.On :: ys).head? = some Bit.On := rfl
        rw [if_pos cab, if_neg ca, if_pos cb]
        rw [lxor_replicate_off_right _ L hA]
        exact lxor_assoc _ _ _
      · -- On, Off: right commutativity of pointwise XOR
        have cab : some (Bit.bxor Bit.On Bit.Off) = some Bit.On := by decide
        have ca : (Bit.On :: xs).head? = some Bit.On := rfl
        have cb : ¬ ((Bit.Off :: ys).head? = some Bit.On) := by simp
        rw [if_pos cab, if_pos ca, if_neg cb]
        rw [lxor_replicate_off_right _ L hB]
        exact lxor_right_comm _ _ _
      · -- On, On: the two XORed copies of G cancel
        have cab : ¬ (some (Bit.bxor Bit.On Bit.On) = some Bit.On) := by decide
        have ca : (Bit.On :: xs).head? = some Bit.On := rfl
        have cb : (Bit.On :: ys).head? = some Bit.On := rfl
        rw [if_neg cab, if_pos ca, if_pos cb]
        rw [lxor_replicate_off_right _ L hAB]
        exact (lxor_cancel _ _ G
          (by rw [hGlen])
          (by rw [hGlen]; exact hB)).symm

theorem fwdIter_lxor (g : List Bit) (hgh : g.head? = some Bit.On) (n : Nat)
    (a b : List Bit) (hab : a.length = b.length) (hn : n + g.length ≤ a.length + 1) :
    fwdIter g n (lxor a b) = lxor (fwdIter g n a) (fwdIter g n b) := by
  induction n generalizing a b with
  | zero => rfl
  | succ m ih =>
    have hgnil : g ≠ [] := by
      intro h
      rw [h] at hgh
      simp at hgh
    have hg1 : 1 ≤ g.length := List.length_pos.mpr hgnil
    show fwdIter g m (fwdStep g (lxor a b)) = _
    rw [fwdStep_lxor g a b hab (by omega) hgh]
    rw [ih (fwdStep g a) (fwdStep g b)
      (by rw [fwdStep_length, fwdStep_length, hab])
      (by rw [fwdStep_length]; omega)]
    rfl

theorem fwdIter_zeros (g : List Bit) (k : Nat) (s : List Bit) :
    fwdIter g k (List.replicate k Bit.Off ++ s) = s := by
  induction k with
  | zero => rfl
  | succ m ih =>
    show fwdIter g m (fwdStep g (List.replicate (m + 1) Bit.Off ++ s)) = s
    rw [List.replicate_succ, List.cons_append]
    rw [fwdStep_off g _ (by simp)]
    exact ih

theorem bit_sum_replicate_off (n : Nat) :
    crc.bit_sum (List.replicate n Bit.Off) = 0 := by
  induction n with
  | zero => rfl
  | succ m ih =>
    rw [List.replicate_succ]
    show Bit.Off.toNat + crc.bit_sum (List.replicate m Bit.Off) = 0
    rw [ih]
    rfl

theorem set_bits_append_eq (d z c : List Bit) (hzc : z.length = c.length) :
    set_bits (d ++ z) ((d ++ z).length - c.length) c = d ++ c := by
  unfold set_bits
  have h1 : (d ++ z).length - c.length = d.length := by
    simp only [List.length_append]; omega
  rw [h1, List.take_left]
  have h2 : (d ++ z).length - d.length = c.length := by
    simp only [List.length_append]; omega
  rw [h2, List.take_length]
  have h3 : (d ++ z).drop (d.length + c.length) = [] :=
    List.drop_eq_nil_of_le (by simp only [List.length_append]; omega)
  rw [h3]
  simp

/-- `crc.add` appends the payload's remainder: it equals
`d ++ fwdIter g d.length (d ++ zeros)`. -/
theorem crc_add_eq (g d : List Bit) (hg : g ≠ []) (hd : d ≠ []) :
    crc.add g d
      = d ++ fwdIter g d.length (d ++ List.replicate (g.length - 1) Bit.Off) := by
  have hg1 : 1 ≤ g.length := List.length_pos.mpr hg
  have hd1 : 1 ≤ d.length := List.length_pos.mpr hd
  have hlen1 : (d ++ List.replicate (g.length - 1) Bit.Off).length
      = d.length + (g.length - 1) := by
    simp
  have hglen : g.length ≤ (d ++ List.replicate (g.length - 1) Bit.Off).length := by
    omega
  have hbd : crc.binary_division (d ++ List.replicate (g.length - 1) Bit.Off) g
      = fwdIter g d.length (d ++ List.replicate (g.length - 1) Bit.Off) := by
    rw [binary_division_eq_fwd g _ hg hglen]
    congr 1
    omega
  have hclen : (fwdIter g d.length (d ++ List.replicate (g.length - 1) Bit.Off)).length
      = g.length - 1 := by
    rw [fwdIter_length]
    omega
  show set_bits (d ++ List.replicate (g.length - 1) Bit.Off)
      ((d ++ List.replicate (g.length - 1) Bit.Off).length
        - (crc.binary_division (d ++ List.replicate (g.length - 1) Bit.Off) g).length)
      (crc.binary_division (d ++ List.replicate (g.length - 1) Bit.Off) g) = _
  rw [hbd]
  exact set_bits_append_eq d _ _ (by simp [hclen])

/-- The remainder of the completed codeword is zero: dividing `crc.add g d`
by `g` yields the all-zero remainder. -/
theorem crc_add_remainder_zero (g d : List Bit) (hgh : g.head? = some Bit.On)
    (hd : d ≠ []) :
    crc.binary_division (crc.add g d) g
      = List.replicate (g.length - 1) Bit.Off := by
  have hg : g ≠ [] := by
    intro h
    rw [h] at hgh
    simp at hgh
  have hg1 : 1 ≤ g.length := List.length_pos.mpr hg
  have hd1 : 1 ≤ d.length := List.length_pos.mpr hd
  set c := fwdIter g d.length (d ++ List.replicate (g.length - 1) Bit.Off) with hc
  have hclen : c.length = g.length - 1 := by
    rw [hc, fwdIter_length]
    simp
  have hadd : crc.add g d = d ++ c := crc_add_eq g d hg hd
  have henclen : (d ++ c).length = d.length + (g.length - 1) := by
    simp [hclen]
  rw [hadd]
  rw [binary_division_eq_fwd g (d ++ c) hg (by omega)]
  have hn : (d ++ c).length - g.length + 1 = d.length := by omega
  rw [hn]
  have hsplit : d ++ c
      = lxor (d ++ List.replicate (g.length - 1) Bit.Off)
          (List.replicate d.length Bit.Off ++ c) := by
    rw [lxor_append d (List.replicate (g.length - 1) Bit.Off)
      (List.replicate d.length Bit.Off) c (by simp)]
    rw [lxor_replicate_off_right d d.length (le_refl _)]
    rw [lxor_replicate_off_left c (g.length - 1) (by omega)]
  rw [hsplit]
  rw [fwdIter_lxor g hgh d.length _ _ (by simp [hclen]) (by simp; omega)]
  rw [← hc, fwdIter_zeros g d.length c]
  rw [lxor_self c, hclen]

/-- C2: for every generator `g` that is non-empty with first bit `On` and
every non-empty data `d`, the CRC codec round-trips:
`check_and_remove(g, add(g, d))` succeeds (the recomputed remainder is zero)
and returns exactly `d`, and `add` appended `len(g) - 1` remainder bits. -/
theorem C2_crc_round_trip (g d : List Bit) (hgh : g.head? = some Bit.On)
    (hd : d ≠ []) :
    crc.check_and_remove g (crc.add g d) = Except.ok d ∧
    (crc.add g d).length = d.length + (g.length - 1) := by
  have hg : g ≠ [] := by
    intro h
    rw [h] at hgh
    simp at hgh
  have hg1 : 1 ≤ g.length := List.length_pos.mpr hg
  have hd1 : 1 ≤ d.length := List.length_pos.mpr hd
  have hadd := crc_add_eq g d hg hd
  have hrem := crc_add_remainder_zero g d hgh hd
  have hclen : (fwdIter g d.length (d ++ List.replicate (g.length - 1) Bit.Off)).length
      = g.length - 1 := by
    rw [fwdIter_length]
    simp
  have haddlen : (crc.add g d).length = d.length + (g.length - 1) := by
    rw [hadd]
    simp [hclen]
  refine ⟨?_, haddlen⟩
  unfold crc.check_and_remove
  rw [hrem, bit_sum_replicate_off, if_pos rfl, if_pos (by omega)]
  have ht : (crc.add g d).length - (g.length - 1) = d.length := by omega
  rw [ht, hadd, List.take_left]

/-- Witness for C2 at `g = 10`, `d = 1`. -/
theorem C2_crc_round_trip_witness :
    crc.check_and_remove [Bit.On, Bit.Off] (crc.add [Bit.On, Bit.Off] [Bit.On])
        = Except.ok [Bit.On] ∧
    (crc.add [Bit.On, Bit.Off] [Bit.On]).length
        = [Bit.On].length + ([Bit.On, Bit.Off].length - 1) :=
  C2_crc_round_trip [Bit.On, Bit.Off] [Bit.On] (by decide) (by decide)

theorem stuffScan_append (l1 l2 : List Bit) :
    ∀ (count idx : Nat),
      stuffScan count idx (l1 ++ l2)
        = stuffScan count idx l1 ++ stuffScan (stuffCount count l1) (idx + l1.length) l2 := by
  induction l1 with
  | nil =>
    intro count idx
    simp [stuffScan, stuffCount]
  | cons b rest ih =>
    intro count idx
    cases b with
    | Off =>
      show (if (0 : Nat) = 6 then idx :: stuffScan 0 (idx + 1) (rest ++ l2)
            else stuffScan 0 (idx + 1) (rest ++ l2))
        = (if (0 : Nat) = 6 then idx :: stuffScan 0 (idx + 1) rest
            else stuffScan 0 (idx + 1) rest)
          ++ stuffScan (if (0 : Nat) = 6 then stuffCount 0 rest else stuffCount 0 rest)
              (idx + (rest.length + 1)) l2
      rw [if_neg (by omega), if_neg (by omega), if_neg (by omega)]
      rw [ih 0 (idx + 1)]
      congr 2
      omega
    | On =>
      show (if count + 1 = 6 then idx :: stuffScan 0 (idx + 1) (rest ++ l2)
            else stuffScan (count + 1) (idx + 1) (rest ++ l2))
        = (if count + 1 = 6 then idx :: stuffScan 0 (idx + 1) rest
            else stuffScan (count + 1) (idx + 1) rest)
          ++ stuffScan (if count + 1 = 6 then stuffCount 0 rest else stuffCount (count + 1) rest)
              (idx + (rest.length + 1)) l2
      by_cases h6 : count + 1 = 6
      · rw [if_pos h6, if_pos h6, if_pos h6]
        rw [ih 0 (idx + 1)]
        show idx :: (stuffScan 0 (idx + 1) rest ++ _) = _
        rw [List.cons_append]
        congr 3
        omega
      · rw [if_neg h6, if_neg h6, if_neg h6]
        rw [ih (count + 1) (idx + 1)]
        congr 2
        omega

theorem stuffScan_bounds (l : List Bit) :
    ∀ (count idx p : Nat), p ∈ stuffScan count idx l → idx ≤ p ∧ p < idx + l.length := by
  induction l with
  | nil =>
    intro count idx p hp
    simp [stuffScan] at hp
  | cons b rest ih =>
    intro count idx p hp
    have step : ∀ (c : Nat), p ∈ (if c = 6 then idx :: stuffScan 0 (idx + 1) rest
        else stuffScan c (idx + 1) rest) → idx ≤ p ∧ p < idx + (rest.length + 1) := by
      intro c hc
      by_cases h6 : c = 6
      · rw [if_pos h6] at hc
        rcases List.mem_cons.mp hc with h | h
        · omega
        · have := ih 0 (idx + 1) p h
          omega
      · rw [if_neg h6] at hc
        have := ih c (idx + 1) p hc
        omega
    cases b with
    | Off =>
      have hc : p ∈ (if (0 : Nat) = 6 then idx :: stuffScan 0 (idx + 1) rest
          else stuffScan 0 (idx + 1) rest) := hp
      simpa using step 0 hc
    | On =>
      have hc : p ∈ (if count + 1 = 6 then idx :: stuffScan 0 (idx + 1) rest
          else stuffScan (count + 1) (idx + 1) rest) := hp
      simpa using step (count + 1) hc

theorem stuffScan_rep5 (idx : Nat) :
    stuffScan 0 idx (List.replicate 5 Bit.On) = [] := by
  show stuffScan 0 idx [Bit.On, Bit.On, Bit.On, Bit.On, Bit.On] = []
  simp [stuffScan]

theorem stuffScan_rep6 (idx : Nat) :
    stuffScan 0 idx (List.replicate 6 Bit.On) = [idx + 5] := by
  show stuffScan 0 idx [Bit.On, Bit.On, Bit.On, Bit.On, Bit.On, Bit.On] = [idx + 5]
  simp [stuffScan]

theorem stuffCount_append (l1 l2 : List Bit) :
    ∀ (count : Nat), stuffCount count (l1 ++ l2) = stuffCount (stuffCount count l1) l2 := by
  induction l1 with
  | nil => intro count; rfl
  | cons b rest ih =>
    intro count
    cases b with
    | Off =>
      show (if (0 : Nat) = 6 then stuffCount 0 (rest ++ l2) else stuffCount 0 (rest ++ l2))
        = stuffCount (if (0 : Nat) = 6 then stuffCount 0 rest else stuffCount 0 rest) l2
      rw [if_neg (by omega), if_neg (by omega)]
      exact ih 0
    | On =>
      show (if count + 1 = 6 then stuffCount 0 (rest ++ l2)
            else stuffCount (count + 1) (rest ++ l2))
        = stuffCount (if count + 1 = 6 then stuffCount 0 rest
            else stuffCount (count + 1) rest) l2
      by_cases h6 : count + 1 = 6
      · rw [if_pos h6, if_pos h6]
        exact ih 0
      · rw [if_neg h6, if_neg h6]
        exact ih (count + 1)

theorem stuffCount_ends_off (y : List Bit) (h : y = [] ∨ ∃ z, y = z ++ [Bit.Off]) :
    stuffCount 0 y = 0 := by
  rcases h with h | ⟨z, h⟩
  · rw [h]
    rfl
  · rw [h, stuffCount_append]
    rfl

theorem insert_bit_length (dd : List Bit) (p : Nat) (b : Bit) (h : p ≤ dd.length) :
    (insert_bit dd p b).length = dd.length + 1 := by
  unfold insert_bit
  simp only [List.length_append, List.length_take, List.length_cons, List.length_drop]
  omega

theorem insert_bit_append (dd t : List Bit) (p : Nat) (b : Bit) (h : p ≤ dd.length) :
    insert_bit (dd ++ t) p b = insert_bit dd p b ++ t := by
  unfold insert_bit
  rw [List.take_append_of_le_length h, List.drop_append_of_le_length h]
  simp

theorem foldl_insert_append (places : List Nat) (dd t : List Bit) (n : Nat)
    (hp : ∀ p ∈ places, p < n) (hn : n ≤ dd.length) :
    places.foldl (fun d idx => insert_bit d idx Bit.Off) (dd ++ t)
      = places.foldl (fun d idx => insert_bit d idx Bit.Off) dd ++ t := by
  induction places generalizing dd with
  | nil => rfl
  | cons p rest ih =>
    have hpn : p < n := hp p (List.mem_cons_self p rest)
    have hpd : p ≤ dd.length := by omega
    show rest.foldl _ (insert_bit (dd ++ t) p Bit.Off) = rest.foldl _ (insert_bit dd p Bit.Off) ++ t
    rw [insert_bit_append dd t p Bit.Off hpd]
    exact ih (insert_bit dd p Bit.Off)
      (fun q hq => hp q (List.mem_cons_of_mem p hq))
      (by rw [insert_bit_length dd p Bit.Off hpd]; omega)

/-- C3: the stuffing round trip fails on the code. For the 6-bit input
`111110` (which contains no flag octet, being shorter than 8 bits),
`stuff_bits` makes no insertion (its counter only triggers on a sixth
consecutive `On`), yet `decode_bits` removes the genuine `Off` that follows
the five `On` bits, so `decode_bits (stuff_bits x) ≠ x`. -/
theorem C3_stuff_roundtrip_fails :
    stuff_bits [Bit.On, Bit.On, Bit.On, Bit.On, Bit.On, Bit.Off]
      = [Bit.On, Bit.On, Bit.On, Bit.On, Bit.On, Bit.Off] ∧
    decode_bits (stuff_bits [Bit.On, Bit.On, Bit.On, Bit.On, Bit.On, Bit.Off])
      = [Bit.On, Bit.On, Bit.On, Bit.On, Bit.On] ∧
    decode_bits (stuff_bits [Bit.On, Bit.On, Bit.On, Bit.On, Bit.On, Bit.Off])
      ≠ [Bit.On, Bit.On, Bit.On, Bit.On, Bit.On, Bit.Off] := by
  decide

/-- C4 counterexample: an input that ends in exactly five consecutive `On`
bits is returned unchanged by `stuff_bits` — no `Off` bit is inserted after
the run, contradicting the claim that every run of exactly five consecutive
`On` bits is followed by an inserted `Off`. -/
theorem C4_counterexample :
    stuff_bits (List.replicate 5 Bit.On) = List.replicate 5 Bit.On ∧
    stuff_bits (List.replicate 5 Bit.On) ≠ List.replicate 5 Bit.On ++ [Bit.Off] := by
  decide

/-- C4 (amended): the encoder inserts a single `Off` bit after five
consecutive `On` bits only when a sixth consecutive `On` follows (the `Off`
lands between the fifth and sixth `On`), resetting the counter there; a
trailing run of exactly five `On` bits (after an `Off` or at the start) is
left unstuffed. -/
theorem C4_amended_stuffing_rule (y : List Bit)
    (h : y = [] ∨ ∃ z, y = z ++ [Bit.Off]) :
    stuff_bits (y ++ List.replicate 5 Bit.On) = stuff_bits y ++ List.replicate 5 Bit.On ∧
    stuff_bits (y ++ List.replicate 6 Bit.On)
      = stuff_bits y ++ (List.replicate 5 Bit.On ++ Bit.Off :: [Bit.On]) := by
  have hc : stuffCount 0 y = 0 := stuffCount_ends_off y h
  have hbound : ∀ p ∈ (stuffScan 0 0 y).reverse, p < y.length := by
    intro p hp
    have := stuffScan_bounds y 0 0 p (List.mem_reverse.mp hp)
    omega
  constructor
  · unfold stuff_bits
    rw [stuffScan_append y (List.replicate 5 Bit.On) 0 0, hc,
      stuffScan_rep5 (0 + y.length)]
    rw [List.append_nil]
    exact foldl_insert_append (stuffScan 0 0 y).reverse y
      (List.replicate 5 Bit.On) y.length hbound (le_refl _)
  · unfold stuff_bits
    rw [stuffScan_append y (List.replicate 6 Bit.On) 0 0, hc,
      stuffScan_rep6 (0 + y.length)]
    rw [List.reverse_append, List.reverse_singleton]
    show (stuffScan 0 0 y).reverse.foldl (fun d idx => insert_bit d idx Bit.Off)
      (insert_bit (y ++ List.replicate 6 Bit.On) (0 + y.length + 5) Bit.Off) = _
    have hins : insert_bit (y ++ List.replicate 6 Bit.On) (0 + y.length + 5) Bit.Off
        = y ++ (List.replicate 5 Bit.On ++ Bit.Off :: [Bit.On]) := by
      unfold insert_bit
      rw [Nat.zero_add, List.take_append 5, List.drop_append 5]
      rw [List.take_replicate, List.drop_replicate]
      show y ++ List.replicate 5 Bit.On ++ Bit.Off :: List.replicate 1 Bit.On = _
      simp
    rw [hins]
    exact foldl_insert_append (stuffScan 0 0 y).reverse y
      (List.replicate 5 Bit.On ++ Bit.Off :: [Bit.On]) y.length hbound (le_refl _)

/-- Witness for the amended C4 at `y = [Off]`: `011111` is unchanged and
`0111111` becomes `01111101`. -/
theorem C4_amended_stuffing_rule_witness :
    stuff_bits ([Bit.Off] ++ List.replicate 5 Bit.On)
        = stuff_bits [Bit.Off] ++ List.replicate 5 Bit.On ∧
    stuff_bits ([Bit.Off] ++ List.replicate 6 Bit.On)
        = stuff_bits [Bit.Off] ++ (List.replicate 5 Bit.On ++ Bit.Off :: [Bit.On]) :=
  C4_amended_stuffing_rule [Bit.Off] (Or.inr ⟨[], rfl⟩)

/-- C1: the word set/get round trip fails. Writing the 8-bit word `0x80`
(mask `1 << 7` selects bit 0 of the word, which the claim says must land at
buffer position 0) into an all-zero byte leaves the buffer as `0100_0000`
instead of `1000_0000`, and `get_u8` then returns `64`, not `128`: `set_u8`'s
`overflowing_shr(bit_size - idx)` places the word rotated right by one. The
repository's own tests `get_and_set1`/`get_and_set2` assert the round trip
that this computation refutes. -/
theorem C1_set_get_rotated :
    set_word 8 (List.replicate 8 Bit.Off) 0 128
      = [Bit.Off, Bit.On, Bit.Off, Bit.Off, Bit.Off, Bit.Off, Bit.Off, Bit.Off] ∧
    get_word 8 (set_word 8 (List.replicate 8 Bit.Off) 0 128) 0 = 64 := by
  decide

set_option maxRecDepth 100000

/-- C5: `build` does not zero-pad to a multiple of 16 bits — it appends
`len % 16` padding bits instead of `(16 - len % 16) % 16`. With the mandatory
fields configured and a 1-bit payload, the serialized buffer is 160 + 1 = 161
bits, one zero bit is appended (162 bits), and `build`'s own assert
`output_bitstring.len() % 16 == 0` fails, so `build` does not complete. -/
theorem C5_padding_assert_fails :
    TCPFrameBuilder.build builder_ports_zero [Bit.Off] = Except.error errNotPadded := by
  rfl

/-- C6: building from the all-zero configuration with an empty payload
yields the checksum `0xFFFF` as the 16-bit word at bit offset 128 of the
serialized buffer, with the 16-bit words at offsets 112 and 144 equal to
zero, and the frame's checksum field equal to `0xFFFF`. -/
theorem C6_all_zero_checksum :
    (TCPFrameBuilder.build builder_all_zero []).toOption.map
        (fun f => (get_word 16 f.output_bitstring 112, get_word 16 f.output_bitstring 128,
                   get_word 16 f.output_bitstring 144, f.checksum))
      = some (0, 65535, 0, 65535) := by
  rfl

/-- C7: `build_all` does not return one frame per chunk. With the all-zero
configuration and two empty payload chunks, the first frame (sequence 0,
checksum `0xFFFF`) builds, but the second frame's checksum is `0xFFFE`; the
buggy `set_u16` writes it rotated, `build`'s internal placement assert
(`"AAAAAAaa"`) fails, and `build_all` returns an error instead of 2 frames
with sequence numbers 0 and 1. -/
theorem C7_build_all_assert_fails :
    (TCPFrameBuilder.build_all builder_all_zero [[]]).toOption.isSome = true ∧
    TCPFrameBuilder.build_all builder_all_zero [[], []]
      = Except.error errChecksumPlacement := by
  constructor
  · rfl
  · rfl

/-- C9: a `send_bits` call whose source identity matches neither connected
endpoint returns the topology error and performs no delivery: the returned
cable — both inbound queues and the corruption-generator state — is exactly
the input cable. -/
theorem C9_topology_error_no_delivery (c : Cable) (source_mac : MacAddress)
    (source_port target_port : Nat) (data : List Bit)
    (h1 : ¬ c.node1_mac = source_mac) (h2 : ¬ c.node2_mac = source_mac) :
    (Cable.send_bits c source_mac source_port target_port data).2
        = Except.error errNoSuchNodes ∧
    (Cable.send_bits c source_mac source_port target_port data).1 = c := by
  unfold Cable.send_bits
  rw [if_neg h1, if_neg h2]
  exact ⟨rfl, rfl⟩

/-- Witness for C9: a cable between two distinct addresses, a third address
as source. -/
theorem C9_topology_error_no_delivery_witness :
    (Cable.send_bits
        (Cable.mk (MacAddress.mk [1, 2, 3, 4, 5, 6]) (MacAddress.mk [6, 5, 4, 3, 2, 1])
          [] [] Corruption.noCorruptionKind)
        (MacAddress.mk [9, 9, 9, 9, 9, 9]) 30 40 [Bit.On]).2
      = Except.error errNoSuchNodes ∧
    (Cable.send_bits
        (Cable.mk (MacAddress.mk [1, 2, 3, 4, 5, 6]) (MacAddress.mk [6, 5, 4, 3, 2, 1])
          [] [] Corruption.noCorruptionKind)
        (MacAddress.mk [9, 9, 9, 9, 9, 9]) 30 40 [Bit.On]).1
      = Cable.mk (MacAddress.mk [1, 2, 3, 4, 5, 6]) (MacAddress.mk [6, 5, 4, 3, 2, 1])
          [] [] Corruption.noCorruptionKind :=
  C9_topology_error_no_delivery _ _ 30 40 [Bit.On] (by decide) (by decide)

theorem flip_bits_length (l : List Bit) (i n : Nat) :
    (flip_bits l i n).length = l.length := by
  unfold flip_bits
  simp only [List.length_append, List.length_take, List.length_map,
    List.length_drop]
  omega

theorem flip_bit_length (l : List Bit) (i : Nat) :
    (flip_bit l i).length = l.length :=
  flip_bits_length l i 1

theorem one_bit_flip_length (r : XorShift) (d : List Bit) :
    (Corruption.one_bit_flip r d).2.length = d.length :=
  flip_bit_length d _

theorem burst_flip_length (r : XorShift) (d : List Bit) :
    (Corruption.burst_flip r d).2.length = d.length :=
  flip_bits_length d _ _

theorem flip_loop_length (chance : Nat) (r : XorShift) (l : List Bit) :
    (Corruption.flip_loop chance r l).2.length = l.length := by
  induction l generalizing r with
  | nil => rfl
  | cons b rest ih =>
    show ((Corruption.flip_loop chance r.next_int.2 rest).1,
      _ :: (Corruption.flip_loop chance r.next_int.2 rest).2).2.length = _
    simp only [List.length_cons]
    rw [ih]

theorem multi_bit_flip_even_length (r : XorShift) (chance : Nat) (d : List Bit)
    (p : XorShift × List Bit)
    (h : Corruption.multi_bit_flip_even r chance d = Except.ok p) :
    p.2.length = d.length := by
  unfold Corruption.multi_bit_flip_even at h
  by_cases h100 : chance ≤ 100
  · rw [if_pos h100] at h
    by_cases h0 : chance = 0
    · rw [if_pos h0] at h
      cases h
      rfl
    · rw [if_neg h0] at h
      dsimp only at h
      split at h
      · cases h
        rw [one_bit_flip_length]
        exact flip_loop_length chance r d
      · cases h
        exact flip_loop_length chance r d
  · rw [if_neg h100] at h
    cases h

theorem multi_bit_flip_odd_length (r : XorShift) (chance : Nat) (d : List Bit)
    (p : XorShift × List Bit)
    (h : Corruption.multi_bit_flip_odd r chance d = Except.ok p) :
    p.2.length = d.length := by
  unfold Corruption.multi_bit_flip_odd at h
  by_cases h100 : chance ≤ 100
  · rw [if_pos h100] at h
    by_cases h0 : chance = 0
    · rw [if_pos h0] at h
      cases h
      rfl
    · rw [if_neg h0] at h
      split at h
      case _ q hq =>
        cases h
        rw [one_bit_flip_length]
        exact multi_bit_flip_even_length r chance d q hq
      case _ e _ =>
        cases h
  · rw [if_neg h100] at h
    cases h

theorem random_helper_length (r : XorShift) (d : List Bit)
    (p : XorShift × List Bit)
    (h : Corruption.random_helper r d = Except.ok p) :
    p.2.length = d.length := by
  unfold Corruption.random_helper at h
  dsimp only at h
  split at h
  · cases h
  · split at h
    · cases h
      rfl
    · cases h
      exact one_bit_flip_length _ _
    · split at h
      case _ q hq =>
        cases h
        exact multi_bit_flip_odd_length _ _ _ q hq
      case _ =>
        cases h
    · split at h
      case _ q hq =>
        cases h
        exact multi_bit_flip_even_length _ _ _ q hq
      case _ =>
        cases h
    · cases h
      exact burst_flip_length _ _
    · cases h

theorem random_corruption_helper_length (r : XorShift) (d : List Bit)
    (p : XorShift × List Bit)
    (h : Corruption.random_corruption_helper r d = Except.ok p) :
    p.2.length = d.length := by
  unfold Corruption.random_corruption_helper at h
  dsimp only at h
  split at h
  · cases h
  · split at h
    · cases h
      exact one_bit_flip_length _ _
    · split at h
      case _ q hq =>
        cases h
        exact multi_bit_flip_odd_length _ _ _ q hq
      case _ =>
        cases h
    · split at h
      case _ q hq =>
        cases h
        exact multi_bit_flip_even_length _ _ _ q hq
      case _ =>
        cases h
    · cases h
      exact burst_flip_length _ _
    · cases h

/-- C10: every corruption strategy, on every generator state and every
non-empty buffer, returns (when it returns) a buffer of exactly the same
length as its input: corruption only flips bits in place. -/
theorem C10_corrupt_preserves_length (c : Corruption) (data : List Bit)
    (res : Corruption × List Bit) (hd : data ≠ [])
    (h : Corruption.corrupt_borrow c data = Except.ok res) :
    res.2.length = data.length := by
  unfold Corruption.corrupt_borrow at h
  rw [if_neg (by simpa using hd)] at h
  cases c with
  | noCorruptionKind =>
    cases h
    rfl
  | random rand =>
    dsimp only at h
    split at h
    case _ q hq =>
      cases h
      exact random_helper_length rand data q hq
    case _ =>
      cases h
  | randomCorruption rand =>
    dsimp only at h
    split at h
    case _ q hq =>
      cases h
      exact random_corruption_helper_length rand data q hq
    case _ =>
      cases h
  | oneBitFlip rand =>
    cases h
    exact one_bit_flip_length _ _
  | multiBitFlipOdd rand chance =>
    dsimp only at h
    split at h
    case _ q hq =>
      cases h
      exact multi_bit_flip_odd_length _ _ _ q hq
    case _ =>
      cases h
  | multiBitFlipEven rand chance =>
    dsimp only at h
    split at h
    case _ q hq =>
      cases h
      exact multi_bit_flip_even_length _ _ _ q hq
    case _ =>
      cases h
  | burstFlip rand =>
    cases h
    exact burst_flip_length _ _

/-- Witness for C10: a one-bit-flip corruption on a 2-bit buffer keeps the
length 2. -/
theorem C10_corrupt_preserves_length_witness :
    Corruption.corrupt_borrow (Corruption.oneBitFlip (XorShift.mk 0)) [Bit.On, Bit.Off]
        = Except.ok (Corruption.oneBitFlip (XorShift.mk 0), [Bit.Off, Bit.Off]) ∧
    ([Bit.Off, Bit.Off] : List Bit).length = ([Bit.On, Bit.Off] : List Bit).length :=
  ⟨by rfl,
   C10_corrupt_preserves_length (Corruption.oneBitFlip (XorShift.mk 0))
     [Bit.On, Bit.Off] (Corruption.oneBitFlip (XorShift.mk 0), [Bit.Off, Bit.Off])
     (by decide) (by rfl)⟩

theorem count_ones_cons (b : Bit) (l : List Bit) :
    Corruption.count_ones (b :: l) = Corruption.count_ones l + b.toNat := by
  cases b <;> simp [Corruption.count_ones, List.count_cons, Bit.toNat]

theorem hamming_cons (x y : Bit) (xs ys : List Bit) :
    hamming (x :: xs) (y :: ys) = hamming xs ys + (Bit.bxor x y).toNat := by
  cases x <;> cases y <;>
    simp [hamming, List.count_cons, Bit.bxor, Bit.toNat]

theorem hamming_parity (a b : List Bit) (hab : a.length = b.length) :
    hamming a b % 2 = (Corruption.count_ones a + Corruption.count_ones b) % 2 := by
  induction a generalizing b with
  | nil =>
    cases b with
    | nil => rfl
    | cons y ys => simp at hab
  | cons x xs ih =>
    cases b with
    | nil => simp at hab
    | cons y ys =>
      have hab' : xs.length = ys.length := by simpa using hab
      rw [hamming_cons, count_ones_cons, count_ones_cons]
      have := ih ys hab'
      cases x <;> cases y <;> simp only [Bit.bxor, Bit.toNat] <;> omega

theorem count_on_replicate_off (n : Nat) :
    (List.replicate n Bit.Off).count Bit.On = 0 := by
  induction n with
  | zero => rfl
  | succ m ih => simp [List.replicate_succ, List.count_cons, ih]

theorem hamming_self_zero (d : List Bit) : hamming d d = 0 := by
  show (lxor d d).count Bit.On = 0
  rw [lxor_self]
  exact count_on_replicate_off d.length

theorem count_ones_flip_bit (y : List Bit) (idx : Nat) (h : idx < y.length) :
    Corruption.count_ones (flip_bit y idx) % 2 = (Corruption.count_ones y + 1) % 2 := by
  have hdrop : y.drop idx = y[idx] :: y.drop (idx + 1) := List.drop_eq_getElem_cons h
  have hflip : flip_bit y idx
      = y.take idx ++ [y[idx].flip] ++ y.drop (idx + 1) := by
    show y.take idx ++ ((y.drop idx).take 1).map Bit.flip ++ y.drop (idx + 1) = _
    rw [hdrop]
    rfl
  have hy : y = y.take idx ++ (y[idx] :: y.drop (idx + 1)) := by
    conv_lhs => rw [← List.take_append_drop idx y]
    rw [hdrop]
  have hcy : Corruption.count_ones y
      = Corruption.count_ones (y.take idx) + y[idx].toNat
        + Corruption.count_ones (y.drop (idx + 1)) := by
    conv_lhs => rw [hy]
    simp only [Corruption.count_ones, List.count_append, List.count_cons]
    cases hb : y[idx]
    all_goals simp [Bit.toNat]
    all_goals omega
  have hcf : Corruption.count_ones (flip_bit y idx)
      = Corruption.count_ones (y.take idx) + (y[idx].flip).toNat
        + Corruption.count_ones (y.drop (idx + 1)) := by
    rw [hflip]
    simp only [Corruption.count_ones, List.count_append, List.count_cons]
    cases hb : y[idx]
    all_goals simp [Bit.toNat, Bit.flip, Bit.bxor]
  have hft : (y[idx].flip).toNat + y[idx].toNat = 1 := by
    cases y[idx] <;> rfl
  omega

theorem hamming_flip_bit (x y : List Bit) (idx : Nat) (hxy : x.length = y.length)
    (h : idx < y.length) :
    hamming x (flip_bit y idx) % 2 = (hamming x y + 1) % 2 := by
  have h1 := hamming_parity x (flip_bit y idx) (by rw [flip_bit_length]; exact hxy)
  have h2 := hamming_parity x y hxy
  have h3 := count_ones_flip_bit y idx h
  omega

theorem abs_diff_parity (a b : Nat) :
    Corruption.abs_diff a b % 2 = (a + b) % 2 := by
  unfold Corruption.abs_diff
  omega

theorem one_bit_flip_snd (r : XorShift) (d : List Bit) :
    (Corruption.one_bit_flip r d).2 = flip_bit d (r.next_int.1 % d.length) := rfl

/-- After `multi_bit_flip_even` the number of positions changed is even. -/
theorem multi_bit_flip_even_parity (r : XorShift) (chance : Nat) (data : List Bit)
    (p : XorShift × List Bit) (hd : data ≠ [])
    (h : Corruption.multi_bit_flip_even r chance data = Except.ok p) :
    hamming data p.2 % 2 = 0 := by
  have hdl : 0 < data.length := List.length_pos.mpr hd
  unfold Corruption.multi_bit_flip_even at h
  by_cases h100 : chance ≤ 100
  · rw [if_pos h100] at h
    by_cases h0 : chance = 0
    · rw [if_pos h0] at h
      cases h
      rw [hamming_self_zero]
    · rw [if_neg h0] at h
      dsimp only at h
      have hql : (Corruption.flip_loop chance r data).2.length = data.length :=
        flip_loop_length chance r data
      split at h
      case _ hcond =>
        cases h
        rw [one_bit_flip_snd]
        have hidx : (Corruption.flip_loop chance r data).1.next_int.1
            % (Corruption.flip_loop chance r data).2.length
            < (Corruption.flip_loop chance r data).2.length :=
          Nat.mod_lt _ (by omega)
        rw [hamming_flip_bit data _ _ (by omega) hidx]
        have hpar := hamming_parity data (Corruption.flip_loop chance r data).2 (by omega)
        have habs := abs_diff_parity (Corruption.count_ones data)
          (Corruption.count_ones (Corruption.flip_loop chance r data).2)
        omega
      case _ hcond =>
        cases h
        have hpar := hamming_parity data (Corruption.flip_loop chance r data).2 (by omega)
        have habs := abs_diff_parity (Corruption.count_ones data)
          (Corruption.count_ones (Corruption.flip_loop chance r data).2)
        omega
  · rw [if_neg h100] at h
    cases h

/-- C8 counterexample: with `chance = 0` the `MultiBitFlipOdd` strategy
returns the data unchanged — it neither runs `MultiBitFlipEven` nor performs
the extra `OneBitFlip`, and the number of differing positions is 0, which is
not odd. -/
theorem C8_counterexample_chance_zero :
    Corruption.corrupt_borrow (Corruption.multiBitFlipOdd (XorShift.mk 0) 0) [Bit.On]
        = Except.ok (Corruption.multiBitFlipOdd (XorShift.mk 0) 0, [Bit.On]) ∧
    hamming [Bit.On] [Bit.On] = 0 :=
  ⟨by rfl, by decide⟩

/-- C8 (amended): for every chance in `1..=100` (the source returns the data
unchanged when `chance = 0`), every generator state and every non-empty data,
the `MultiBitFlipOdd` strategy runs `MultiBitFlipEven` (whose total number of
changed positions is even) and then performs exactly one additional
`OneBitFlip`, so the number of bit positions at which its output differs from
its input is odd — in particular never zero. -/
theorem C8_amended_odd_flips (rand : XorShift) (chance : Nat) (data : List Bit)
    (res : Corruption × List Bit) (hch : 1 ≤ chance) (hd : data ≠ [])
    (h : Corruption.corrupt_borrow (Corruption.multiBitFlipOdd rand chance) data
          = Except.ok res) :
    hamming data res.2 % 2 = 1 := by
  have hdl : 0 < data.length := List.length_pos.mpr hd
  unfold Corruption.corrupt_borrow at h
  rw [if_neg (by simpa using hd)] at h
  dsimp only at h
  split at h
  case _ q hq =>
    cases h
    show hamming data q.2 % 2 = 1
    unfold Corruption.multi_bit_flip_odd at hq
    by_cases h100 : chance ≤ 100
    · rw [if_pos h100, if_neg (by omega)] at hq
      split at hq
      case _ q2 hq2 =>
        cases hq
        rw [one_bit_flip_snd]
        have hl2 : q2.2.length = data.length :=
          multi_bit_flip_even_length rand chance data q2 hq2
        have hp2 : hamming data q2.2 % 2 = 0 :=
          multi_bit_flip_even_parity rand chance data q2 hd hq2
        have hidx : q2.1.next_int.1 % q2.2.length < q2.2.length :=
          Nat.mod_lt _ (by omega)
        rw [hamming_flip_bit data _ _ (by omega) hidx]
        omega
      case _ =>
        cases hq
    · rw [if_neg h100] at hq
      cases hq
  case _ =>
    cases h

/-- Witness for the amended C8 at `chance = 1`, seed 0, data `1`: the output
is `0`, differing in exactly one (odd) position. -/
theorem C8_amended_odd_flips_witness :
    Corruption.corrupt_borrow (Corruption.multiBitFlipOdd (XorShift.mk 0) 1) [Bit.On]
        = Except.ok (Corruption.multiBitFlipOdd (XorShift.mk 0) 1, [Bit.Off]) ∧
    hamming [Bit.On] [Bit.Off] % 2 = 1 :=
  ⟨by rfl,
   C8_amended_odd_flips (XorShift.mk 0) 1 [Bit.On]
     (Corruption.multiBitFlipOdd (XorShift.mk 0) 1, [Bit.Off])
     (by decide) (by decide) (by rfl)⟩

end NetworkSim
